import Mathlib

/-!
Verification of the text segmentation, location mapping and classification
pipeline of the vague-language-detection repository.

The Python sources are shallowly embedded: strings are Lean strings
(sequences of characters, matching Python length and slicing semantics),
loops become structural recursions, and the external Gemini call together
with the JSON parser are abstracted as function parameters, since the
specification treats the classifier as an opaque oracle.
-/

set_option maxRecDepth 4000

namespace VagueDetect

/-! ## Python string primitives -/

/-- Python whitespace test for the regex class backslash-s (ASCII part). -/
def isPySpace (c : Char) : Bool :=
  c = ' ' || c = '\t' || c = '\n' || c = '\r' || c = '\x0b' || c = '\x0c'

/-- Does the needle occur at the head of the haystack. -/
def matchAt : List Char → List Char → Bool
  | [], _ => true
  | _ :: _, [] => false
  | a :: as, b :: bs => a = b && matchAt as bs

/-- Substring search over character lists. -/
def strContainsAux : List Char → List Char → Bool
  | needle, [] => matchAt needle []
  | needle, c :: rest => matchAt needle (c :: rest) || strContainsAux needle rest

/-- Python `needle in hay` substring test. -/
def pyIn (needle hay : String) : Bool :=
  strContainsAux needle.data hay.data

/-- Python slice `s[:n]` (character based). -/
def pyTake (n : Nat) (s : String) : String :=
  ⟨s.data.take n⟩

/-- Python slice `s[n:]` (character based). -/
def pyDrop (n : Nat) (s : String) : String :=
  ⟨s.data.drop n⟩

/-- Replace every maximal whitespace run by a single space:
the effect of `re.sub` with pattern backslash-s-plus and a single space as
the replacement.  A run collapses to one space character. -/
def collapseWs : List Char → List Char
  | [] => []
  | [c] => if isPySpace c then [' '] else [c]
  | c :: d :: rest =>
    if isPySpace c && isPySpace d then collapseWs (d :: rest)
    else (if isPySpace c then ' ' else c) :: collapseWs (d :: rest)

/-- Remove the maximal trailing whitespace run. -/
def dropTrailingWs : List Char → List Char
  | [] => []
  | c :: rest =>
    match dropTrailingWs rest with
    | [] => if isPySpace c then [] else [c]
    | r => c :: r

/-- Python `str.strip` on character lists. -/
def stripChars (cs : List Char) : List Char :=
  dropTrailingWs (cs.dropWhile isPySpace)

/-- Python `s.strip()`. -/
def pyStrip (s : String) : String :=
  ⟨stripChars s.data⟩

/-- The cleanup `re.sub(whitespace-run, space, s).strip()` used by the
segmenters. -/
def normalizeWs (s : String) : String :=
  ⟨stripChars (collapseWs s.data)⟩

/-- Given a whitespace run, return the suffix after its last newline,
if the run holds a newline at all. -/
def splitAfterLastNl : List Char → Option (List Char)
  | [] => none
  | c :: rest =>
    match splitAfterLastNl rest with
    | some suf => some suf
    | none => if c = '\n' then some rest else none

/-- Splitter for the regex `newline whitespace-star newline` used as the
paragraph separator.  A separator match starts at a newline and extends to
the last newline of the contiguous whitespace run that follows; the fuel
argument (initialised to the text length) only serves to make the recursion
structural and is never exhausted, since each match consumes at least one
character. -/
def splitParasFuel : Nat → List Char → List Char → List (List Char)
  | _, acc, [] => [acc.reverse]
  | 0, acc, rest => [acc.reverse ++ rest]
  | fuel + 1, acc, c :: rest =>
    if c = '\n' then
      match splitAfterLastNl (rest.takeWhile isPySpace) with
      | some suf => acc.reverse :: splitParasFuel fuel [] (suf ++ rest.dropWhile isPySpace)
      | none => splitParasFuel fuel (c :: acc) rest
    else splitParasFuel fuel (c :: acc) rest

/-- Python `re.split` on the paragraph separator `newline whitespace-star
newline`. -/
def splitParas (text : String) : List String :=
  (splitParasFuel text.data.length [] text.data).map (fun cs => String.mk cs)

/-! ## Well-formedness of units -/

/-- The first character, when present, is not whitespace. -/
def headNotWs : List Char → Bool
  | [] => true
  | c :: _ => !isPySpace c

/-- The last character, when present, is not whitespace. -/
def lastNotWs (l : List Char) : Bool :=
  match l.getLast? with
  | some c => !isPySpace c
  | none => true

/-- No two adjacent whitespace characters. -/
def noAdjWs : List Char → Bool
  | [] => true
  | [_] => true
  | a :: b :: rest => (!(isPySpace a && isPySpace b)) && noAdjWs (b :: rest)

/-- A unit is well formed when it is non-empty, trimmed at both ends, and
holds no internal run of two or more whitespace characters. -/
def wellFormedUnit (s : String) : Bool :=
  !s.data.isEmpty && headNotWs s.data && lastNotWs s.data && noAdjWs s.data

/-- Join strings with single spaces. -/
def joinSpace : List String → String
  | [] => ""
  | [s] => s
  | s :: t :: rest => s ++ " " ++ joinSpace (t :: rest)

/-! ## Segmenter: src/utils/text_processor.py

The nltk sentence tokenizer is an external library; following the
specification it is treated as an abstract sentence-boundary tokenizer and
passed in as the function argument `tok`. -/

/-- Loop body of `segment_by_length` (src/utils/text_processor.py lines
78-94): greedily accumulate sentences into `current_chunk`, closing the
chunk when `len(current_chunk) + len(sentence) > target_length` and the
chunk is non-empty.  Chunks are emitted stripped, in order. -/
def segment_by_length_loop (target_length : Nat) : List String → String → List String
  | [], current_chunk =>
    if current_chunk ≠ "" then [pyStrip current_chunk] else []
  | sentence :: rest, current_chunk =>
    if current_chunk.length + sentence.length > target_length ∧ current_chunk ≠ "" then
      pyStrip current_chunk :: segment_by_length_loop target_length rest sentence
    else
      segment_by_length_loop target_length rest
        (if current_chunk ≠ "" then current_chunk ++ " " ++ sentence else sentence)

/-- `segment_by_length(text, target_length)`: tokenize the original text
into sentences, then chunk greedily at sentence boundaries. -/
def segment_by_length (tok : String → List String) (text : String)
    (target_length : Nat) : List String :=
  segment_by_length_loop target_length (tok text) ""

/-- Loop body of `segment_paragraphs` (src/utils/text_processor.py lines
35-57): normalize each candidate, skip those of length below 10, buffer
those below `min_length`, flush the buffer before a long candidate, and
flush the remaining buffer at the end. -/
def paraLoop (min_length : Nat) : List String → List String → String → List String
  | [], cleaned_paragraphs, buffer =>
    if buffer ≠ "" then cleaned_paragraphs ++ [buffer] else cleaned_paragraphs
  | para :: rest, cleaned_paragraphs, buffer =>
    let p := normalizeWs para
    if p.length < 10 then
      paraLoop min_length rest cleaned_paragraphs buffer
    else if p.length < min_length ∧ buffer ≠ "" then
      paraLoop min_length rest cleaned_paragraphs (buffer ++ " " ++ p)
    else if p.length < min_length then
      paraLoop min_length rest cleaned_paragraphs p
    else if buffer ≠ "" then
      paraLoop min_length rest (cleaned_paragraphs ++ [buffer, p]) ""
    else
      paraLoop min_length rest (cleaned_paragraphs ++ [p]) ""

/-- The cleaned paragraph list of `segment_paragraphs` before the fallback
check. -/
def paragraph_candidates (text : String) (min_length : Nat) : List String :=
  paraLoop min_length (splitParas text) [] ""

/-- `segment_paragraphs(text, min_length=50)` (src/utils/text_processor.py
lines 17-63): split on blank lines, clean and merge, and fall back to
`segment_by_length(text, 500)` when the result is empty or is a single
paragraph longer than 1000 characters. -/
def segment_paragraphs (tok : String → List String) (text : String)
    (min_length : Nat) : List String :=
  let cleaned_paragraphs := paragraph_candidates text min_length
  let degenerate : Bool :=
    match cleaned_paragraphs with
    | [] => true
    | [p] => p.length > 1000
    | _ => false
  if degenerate then segment_by_length tok text 500 else cleaned_paragraphs

/-- Loop body of `segment_sentences` (src/utils/text_processor.py lines
110-119): normalize each tokenizer sentence and keep those longer than 10
characters, in order. -/
def clean_sentences : List String → List String
  | [] => []
  | sent :: rest =>
    let s := normalizeWs sent
    if s.length > 10 then s :: clean_sentences rest else clean_sentences rest

/-- `segment_sentences(text)` (src/utils/text_processor.py lines 97-119). -/
def segment_sentences (tok : String → List String) (text : String) : List String :=
  clean_sentences (tok text)

/-! ## Locator: src/utils/text_processor.py lines 154-232 -/

/-- A text block with location data.  The bounding box is a quadruple of
rationals standing for the coordinate floats; the claims only ever copy and
compare these values, never compute with them. -/
structure Block where
  text : String
  page : Nat
  bbox : Rat × Rat × Rat × Rat
deriving DecidableEq

/-- One output record of the locator: a unit together with the page and
bounding box of the block it was assigned to. -/
structure LocatedUnit where
  text : String
  page : Nat
  bbox : Rat × Rat × Rat × Rat
deriving DecidableEq

/-- Paragraph-mode block match (line 175): the first 50 characters of the
paragraph occur in the block text, or the whole block text occurs in the
paragraph. -/
def paraBlockMatch (paragraph : String) (block : Block) : Bool :=
  pyIn (pyTake 50 paragraph) block.text || pyIn block.text paragraph

/-- Sentence-mode block match (line 215): the whole sentence occurs in the
block text. -/
def sentBlockMatch (sentence : String) (block : Block) : Bool :=
  pyIn sentence block.text

/-- `map_paragraphs_to_blocks(paragraphs, blocks)` (lines 154-192): for
each paragraph take the first matching block, falling back to the first
block when none matches and the block list is non-empty. -/
def map_paragraphs_to_blocks : List String → List Block → List LocatedUnit
  | [], _ => []
  | paragraph :: rest, blocks =>
    match blocks.find? (paraBlockMatch paragraph) with
    | some block =>
      ⟨paragraph, block.page, block.bbox⟩ :: map_paragraphs_to_blocks rest blocks
    | none =>
      match blocks with
      | [] => map_paragraphs_to_blocks rest blocks
      | b0 :: _ => ⟨paragraph, b0.page, b0.bbox⟩ :: map_paragraphs_to_blocks rest blocks

/-- `map_sentences_to_blocks(sentences, blocks)` (lines 195-232): same
shape with the sentence containment test.  The combined `all_text` of the
source is computed but never used there, so it is omitted. -/
def map_sentences_to_blocks : List String → List Block → List LocatedUnit
  | [], _ => []
  | sentence :: rest, blocks =>
    match blocks.find? (sentBlockMatch sentence) with
    | some block =>
      ⟨sentence, block.page, block.bbox⟩ :: map_sentences_to_blocks rest blocks
    | none =>
      match blocks with
      | [] => map_sentences_to_blocks rest blocks
      | b0 :: _ => ⟨sentence, b0.page, b0.bbox⟩ :: map_sentences_to_blocks rest blocks

/-! ## Reference grouping for the chunk fallback

Modelled from the spec: the greedy accumulation rule of section 4.1, stated
on groups of sentences rather than on the joined string, to compare with
`segment_by_length`. -/

/-- Modelled from the spec: greedily accumulate consecutive tokenizer
sentences into groups, closing a group when adding the next sentence would
push the joined length past the target.  Each chunk of the fallback should
be the space-join of one group. -/
def greedySentenceGroups (target_length : Nat) : List String → List String → List (List String)
  | [], group => if group ≠ [] then [group] else []
  | sentence :: rest, group =>
    if (joinSpace group).length + sentence.length > target_length ∧ group ≠ [] then
      group :: greedySentenceGroups target_length rest [sentence]
    else
      greedySentenceGroups target_length rest (group ++ [sentence])

/-! ## Classifier gateway: src/utils/vagueness_detector.py

The Gemini call (prompt construction plus `generate_content`) is abstracted
as the function `generate`, and `json.loads` together with the shape of the
decoded object as the function `parseJson`; both are opaque oracles per the
specification. -/

/-- Outcome of the model call: a raw response text, or a raised exception
with its message. -/
inductive GenResponse where
  | ok (text : String)
  | err (msg : String)
deriving DecidableEq

/-- The three optional fields read off the decoded JSON object with
`result.get`. -/
structure ParsedAnalysis where
  is_vague : Option Bool
  reason : Option String
  suggestion : Option String
deriving DecidableEq

/-- The result dictionary returned by the analyzers. -/
structure AnalysisResult where
  is_vague : Bool
  reason : String
  suggestion : String
deriving DecidableEq

/-- Characters before the next triple-backtick fence. -/
def takeUntilFence : List Char → List Char
  | [] => []
  | c :: rest =>
    if matchAt "```".data (c :: rest) then [] else c :: takeUntilFence rest

/-- The markdown-fence cleanup of the analyzers (lines 63-66): when the
response starts with a fence, keep `split` on the fence at index 1, then
drop a leading `json` tag. -/
def stripCodeFence (response_text : String) : String :=
  if matchAt "```".data response_text.data then
    let t : String := ⟨takeUntilFence (response_text.data.drop 3)⟩
    if matchAt "json".data t.data then pyDrop 4 t else t
  else response_text

/-- `analyze_paragraph` (src/utils/vagueness_detector.py lines 11-89):
call the model, strip and unfence the response, parse it as JSON and read
the three fields with defaults; a parse failure or a raised exception is
absorbed into a fallback result carrying the original paragraph. -/
def analyze_paragraph (parseJson : String → Except String ParsedAnalysis)
    (generate : String → GenResponse) (paragraph : String) : AnalysisResult :=
  match generate paragraph with
  | .err e =>
    { is_vague := false, reason := "Error analyzing paragraph: " ++ e, suggestion := paragraph }
  | .ok raw =>
    let response_text := stripCodeFence (pyStrip raw)
    match parseJson response_text with
    | .error e =>
      { is_vague := false, reason := "Error parsing response: " ++ e, suggestion := paragraph }
    | .ok result =>
      { is_vague := result.is_vague.getD false
        reason := result.reason.getD "No reason provided"
        suggestion := result.suggestion.getD "No suggestion provided" }

/-- `analyze_sentence` (src/utils/vagueness_detector.py lines 92-164):
identical handling; the optional context argument only enters the prompt,
which is abstracted inside `generate`. -/
def analyze_sentence (parseJson : String → Except String ParsedAnalysis)
    (generate : String → GenResponse) (sentence : String) : AnalysisResult :=
  match generate sentence with
  | .err e =>
    { is_vague := false, reason := "Error analyzing sentence: " ++ e, suggestion := sentence }
  | .ok raw =>
    let response_text := stripCodeFence (pyStrip raw)
    match parseJson response_text with
    | .error e =>
      { is_vague := false, reason := "Error parsing response: " ++ e, suggestion := sentence }
    | .ok result =>
      { is_vague := result.is_vague.getD false
        reason := result.reason.getD "No reason provided"
        suggestion := result.suggestion.getD "No suggestion provided" }

/-- `analyze_batch` (src/utils/vagueness_detector.py lines 167-193): one
result per item, produced sequentially by the chosen analyzer; the progress
callback is display plumbing and has no effect on the results. -/
def analyze_batch (parseJson : String → Except String ParsedAnalysis)
    (generate : String → GenResponse) (use_paragraphs : Bool) :
    List String → List AnalysisResult
  | [] => []
  | item :: rest =>
    (if use_paragraphs then analyze_paragraph parseJson generate item
     else analyze_sentence parseJson generate item)
    :: analyze_batch parseJson generate use_paragraphs rest

/-- The credential gate and per-unit loop of `main` (src/app.py lines
240-340): an empty stored key stops the run with an error before any unit
is processed; otherwise every unit is analyzed in order with the configured
key, one result per unit.  The gateway takes the credential first, so an
invalid key surfaces as a per-call exception inside the analyzers. -/
def main_run (api_key : String) (parseJson : String → Except String ParsedAnalysis)
    (gateway : String → String → GenResponse) (use_paragraphs : Bool)
    (units : List String) : Except String (List AnalysisResult) :=
  if api_key = "" then
    .error "Please enter your Google Gemini API key in the sidebar first!"
  else
    .ok (units.map (fun u =>
      if use_paragraphs then analyze_paragraph parseJson (gateway api_key) u
      else analyze_sentence parseJson (gateway api_key) u))

/-! ## Helper lemmas: strings and whitespace -/

theorem str_ne_empty_iff (s : String) : s ≠ "" ↔ s.data ≠ [] := by
  constructor
  · intro h h2
    exact h (String.ext (by simp [h2]))
  · intro h h2
    exact h (by simp [h2])

theorem length_mk (l : List Char) : (String.mk l).length = l.length := rfl

theorem data_mk (l : List Char) : (String.mk l).data = l := rfl

theorem length_dropWhile_le (p : Char → Bool) (l : List Char) :
    (l.dropWhile p).length ≤ l.length := by
  induction l with
  | nil => simp
  | cons c rest ih =>
    by_cases h : p c = true
    · rw [List.dropWhile_cons, if_pos h]
      simp only [List.length_cons]
      omega
    · rw [List.dropWhile_cons, if_neg h]

theorem dropWhile_head_not_ws :
    ∀ (l : List Char) {d : Char} {m : List Char},
      l.dropWhile isPySpace = d :: m → isPySpace d = false
  | [], _, _, h => by simp at h
  | c :: rest, d, m, h => by
    by_cases hc : isPySpace c = true
    · rw [List.dropWhile_cons, if_pos hc] at h
      exact dropWhile_head_not_ws rest h
    · simp only [Bool.not_eq_true] at hc
      rw [List.dropWhile_cons, if_neg (by simp [hc])] at h
      cases h
      exact hc

theorem noAdjWs_tail {a : Char} {l : List Char} (h : noAdjWs (a :: l) = true) :
    noAdjWs l = true := by
  cases l with
  | nil => rfl
  | cons b m =>
    simp only [noAdjWs, Bool.and_eq_true] at h
    exact h.2

theorem noAdjWs_cons_not_ws {a : Char} {l : List Char} (ha : isPySpace a = false)
    (h : noAdjWs l = true) : noAdjWs (a :: l) = true := by
  cases l with
  | nil => rfl
  | cons b m => simp [noAdjWs, ha, h]

theorem collapseWs_cons_not_ws (c : Char) (l : List Char) (hc : isPySpace c = false) :
    collapseWs (c :: l) = c :: collapseWs l := by
  cases l with
  | nil => simp [collapseWs, hc]
  | cons d m => simp [collapseWs, hc]

theorem collapseWs_cons_ws :
    ∀ (c : Char) (l : List Char), isPySpace c = true →
      collapseWs (c :: l) = ' ' :: collapseWs (l.dropWhile isPySpace)
  | c, [], hc => by simp [collapseWs, hc]
  | c, d :: m, hc => by
    by_cases hd : isPySpace d = true
    · have h1 : collapseWs (c :: d :: m) = collapseWs (d :: m) := by
        simp [collapseWs, hc, hd]
      rw [h1, collapseWs_cons_ws d m hd]
      simp [List.dropWhile_cons, hd]
    · simp only [Bool.not_eq_true] at hd
      simp [collapseWs, hc, hd, List.dropWhile_cons]

theorem noAdjWs_collapseWs : ∀ l : List Char, noAdjWs (collapseWs l) = true
  | [] => rfl
  | c :: l => by
    by_cases hc : isPySpace c = true
    · rw [collapseWs_cons_ws c l hc]
      have hrec := noAdjWs_collapseWs (l.dropWhile isPySpace)
      cases hdw : l.dropWhile isPySpace with
      | nil => simp [hdw, collapseWs, noAdjWs] at hrec ⊢
      | cons d m =>
        have hd : isPySpace d = false := dropWhile_head_not_ws l hdw
        rw [hdw] at hrec
        rw [collapseWs_cons_not_ws d m hd] at hrec ⊢
        simp only [noAdjWs, Bool.and_eq_true]
        refine ⟨by simp [hd], hrec⟩
    · simp only [Bool.not_eq_true] at hc
      rw [collapseWs_cons_not_ws c l hc]
      exact noAdjWs_cons_not_ws hc (noAdjWs_collapseWs l)
termination_by l => l.length
decreasing_by
  · simp only [List.length_cons]
    have := length_dropWhile_le isPySpace l
    omega
  · simp [List.length_cons]

theorem dropTrailingWs_isPrefixOf : ∀ l : List Char, dropTrailingWs l <+: l
  | [] => List.nil_prefix
  | c :: rest => by
    have ih := dropTrailingWs_isPrefixOf rest
    simp only [dropTrailingWs]
    cases h : dropTrailingWs rest with
    | nil =>
      by_cases hc : isPySpace c = true
      · simp [hc]
      · simp only [Bool.not_eq_true] at hc
        simp only [hc, if_neg]
        exact List.cons_prefix_cons.mpr ⟨rfl, List.nil_prefix⟩
    | cons d m =>
      rw [h] at ih
      exact List.cons_prefix_cons.mpr ⟨rfl, ih⟩

theorem length_dropTrailingWs_le (l : List Char) :
    (dropTrailingWs l).length ≤ l.length :=
  (dropTrailingWs_isPrefixOf l).length_le

theorem noAdjWs_take : ∀ (n : Nat) (l : List Char), noAdjWs l = true →
    noAdjWs (l.take n) = true
  | 0, _, _ => rfl
  | _ + 1, [], _ => rfl
  | n + 1, [c], _ => by
    cases n <;> simp [List.take_succ_cons, noAdjWs]
  | n + 1, a :: b :: rest, h => by
    cases n with
    | zero => simp [List.take_succ_cons, noAdjWs]
    | succ m =>
      rw [List.take_succ_cons, List.take_succ_cons]
      simp only [noAdjWs, Bool.and_eq_true] at h ⊢
      have := noAdjWs_take (m + 1) (b :: rest) h.2
      rw [List.take_succ_cons] at this
      exact ⟨h.1, this⟩

theorem noAdjWs_isPrefixOf {p l : List Char} (hp : p <+: l) (h : noAdjWs l = true) :
    noAdjWs p = true := by
  rw [List.prefix_iff_eq_take.mp hp]
  exact noAdjWs_take _ _ h

theorem noAdjWs_dropWhile {l : List Char} (h : noAdjWs l = true) :
    noAdjWs (l.dropWhile isPySpace) = true := by
  induction l with
  | nil => rfl
  | cons c rest ih =>
    by_cases hc : isPySpace c = true
    · rw [List.dropWhile_cons, if_pos hc]
      exact ih (noAdjWs_tail h)
    · rw [List.dropWhile_cons, if_neg hc]
      exact h

theorem dropTrailingWs_getLast_not_ws :
    ∀ (l : List Char) {c : Char}, (dropTrailingWs l).getLast? = some c →
      isPySpace c = false
  | [], c, h => by simp [dropTrailingWs] at h
  | x :: rest, c, h => by
    rw [dropTrailingWs] at h
    cases hr : dropTrailingWs rest with
    | nil =>
      rw [hr] at h
      by_cases hx : isPySpace x = true
      · simp [hx] at h
      · simp only [Bool.not_eq_true] at hx
        simp [hx] at h
        subst h
        exact hx
    | cons d m =>
      rw [hr] at h
      rw [List.getLast?_cons_cons] at h
      rw [← hr] at h
      exact dropTrailingWs_getLast_not_ws rest h

theorem dropTrailingWs_eq_self {l : List Char} (h : lastNotWs l = true) :
    dropTrailingWs l = l := by
  induction l with
  | nil => rfl
  | cons c rest ih =>
    cases rest with
    | nil =>
      simp only [lastNotWs, List.getLast?_singleton, Bool.not_eq_true'] at h
      simp [dropTrailingWs, h]
    | cons d m =>
      have h2 : lastNotWs (d :: m) = true := by
        simpa only [lastNotWs, List.getLast?_cons_cons] using h
      rw [dropTrailingWs, ih h2]

theorem dropWhile_eq_self_of_head {l : List Char} (h : headNotWs l = true) :
    l.dropWhile isPySpace = l := by
  cases l with
  | nil => rfl
  | cons c rest =>
    simp only [headNotWs, Bool.not_eq_true'] at h
    rw [List.dropWhile_cons, if_neg (by simp [h])]

theorem stripChars_eq_self {l : List Char} (h1 : headNotWs l = true)
    (h2 : lastNotWs l = true) : stripChars l = l := by
  rw [stripChars, dropWhile_eq_self_of_head h1, dropTrailingWs_eq_self h2]

theorem headNotWs_stripChars (l : List Char) : headNotWs (stripChars l) = true := by
  rw [stripChars]
  cases h : dropTrailingWs (l.dropWhile isPySpace) with
  | nil => rfl
  | cons d m =>
    have hp := dropTrailingWs_isPrefixOf (l.dropWhile isPySpace)
    rw [h] at hp
    obtain ⟨t, ht⟩ := hp
    have hdw : l.dropWhile isPySpace = d :: (m ++ t) := by
      rw [← ht]; simp
    have hd := dropWhile_head_not_ws l hdw
    simp [headNotWs, hd]

theorem lastNotWs_stripChars (l : List Char) : lastNotWs (stripChars l) = true := by
  rw [stripChars]
  cases h : (dropTrailingWs (l.dropWhile isPySpace)).getLast? with
  | none => simp [lastNotWs, h]
  | some c =>
    have := dropTrailingWs_getLast_not_ws (l.dropWhile isPySpace) h
    simp [lastNotWs, h, this]

theorem noAdjWs_stripChars {l : List Char} (h : noAdjWs l = true) :
    noAdjWs (stripChars l) = true :=
  noAdjWs_isPrefixOf (dropTrailingWs_isPrefixOf _) (noAdjWs_dropWhile h)

theorem stripChars_idem (l : List Char) : stripChars (stripChars l) = stripChars l :=
  stripChars_eq_self (headNotWs_stripChars l) (lastNotWs_stripChars l)

theorem pyStrip_idem (s : String) : pyStrip (pyStrip s) = pyStrip s :=
  String.ext (stripChars_idem s.data)

theorem headNotWs_of_stripChars_eq {l : List Char} (h : stripChars l = l) :
    headNotWs l = true := by
  cases l with
  | nil => rfl
  | cons c rest =>
    by_cases hc : isPySpace c = true
    · exfalso
      have h1 : (c :: rest).dropWhile isPySpace = rest.dropWhile isPySpace := by
        rw [List.dropWhile_cons, if_pos hc]
      have hlen : (stripChars (c :: rest)).length ≤ rest.length := by
        rw [stripChars, h1]
        exact le_trans (length_dropTrailingWs_le _) (length_dropWhile_le _ _)
      rw [h] at hlen
      simp only [List.length_cons] at hlen
      omega
    · simp only [Bool.not_eq_true] at hc
      simp [headNotWs, hc]

theorem dropTrailingWs_length_lt :
    ∀ (l : List Char) {c : Char}, l.getLast? = some c → isPySpace c = true →
      (dropTrailingWs l).length < l.length
  | [], _, h, _ => by simp at h
  | x :: rest, c, h, hc => by
    cases rest with
    | nil =>
      simp only [List.getLast?_singleton, Option.some.injEq] at h
      subst h
      simp [dropTrailingWs, hc]
    | cons d m =>
      rw [List.getLast?_cons_cons] at h
      have hlt := dropTrailingWs_length_lt (d :: m) h hc
      rw [dropTrailingWs]
      cases hr : dropTrailingWs (d :: m) with
      | nil =>
        by_cases hx : isPySpace x = true
        · simp [hx, List.length_cons]
        · simp [hx, List.length_cons]
      | cons e r =>
        rw [hr] at hlt
        simp only [List.length_cons] at hlt ⊢
        omega

theorem lastNotWs_of_stripChars_eq {l : List Char} (h : stripChars l = l) :
    lastNotWs l = true := by
  cases hg : l.getLast? with
  | none => simp [lastNotWs, hg]
  | some c =>
    by_cases hc : isPySpace c = true
    · exfalso
      have hlen1 : (stripChars l).length ≤ (l.dropWhile isPySpace).length :=
        length_dropTrailingWs_le _
      have hlen2 := length_dropWhile_le isPySpace l
      rw [h] at hlen1
      have heq : l.dropWhile isPySpace = l := by
        have hsub := (List.dropWhile_suffix (p := isPySpace) (l := l)).sublist
        exact hsub.eq_of_length (le_antisymm hlen2 hlen1)
      have hdt : dropTrailingWs l = l := by
        rw [stripChars, heq] at h
        exact h
      have := dropTrailingWs_length_lt l hg hc
      rw [hdt] at this
      omega
    · simp only [Bool.not_eq_true] at hc
      simp [lastNotWs, hg, hc]

/-! ## Helper lemmas: well-formed units -/

theorem wellFormedUnit_iff (s : String) :
    wellFormedUnit s = true ↔
      s.data ≠ [] ∧ headNotWs s.data = true ∧ lastNotWs s.data = true ∧
        noAdjWs s.data = true := by
  simp [wellFormedUnit, Bool.and_eq_true, List.isEmpty_iff, and_assoc]

theorem headNotWs_append_left {l m : List Char} (h : l ≠ []) :
    headNotWs (l ++ m) = headNotWs l := by
  cases l with
  | nil => exact absurd rfl h
  | cons c rest => rfl

theorem lastNotWs_append_right {l m : List Char} (h : m ≠ []) :
    lastNotWs (l ++ m) = lastNotWs m := by
  rw [lastNotWs, lastNotWs, List.getLast?_append_of_ne_nil _ h]

theorem noAdjWs_append :
    ∀ (xs ys : List Char), noAdjWs xs = true → noAdjWs ys = true →
      (∀ a b, xs.getLast? = some a → ys.head? = some b →
        (isPySpace a && isPySpace b) = false) →
      noAdjWs (xs ++ ys) = true
  | [], ys, _, hy, _ => hy
  | [c], ys, _, hy, hb => by
    cases ys with
    | nil => rfl
    | cons d m =>
      simp only [List.cons_append, List.nil_append, noAdjWs, Bool.and_eq_true]
      refine ⟨?_, hy⟩
      have := hb c d (by simp) (by simp)
      simp [this]
  | a :: b :: rest, ys, hx, hy, hb => by
    simp only [List.cons_append, noAdjWs, Bool.and_eq_true] at hx ⊢
    refine ⟨hx.1, ?_⟩
    have hrec := noAdjWs_append (b :: rest) ys hx.2 hy
      (fun x y h1 h2 => hb x y (by rw [List.getLast?_cons_cons]; exact h1) h2)
    simpa using hrec

theorem wellFormedUnit_normalizeWs {s : String} (h : normalizeWs s ≠ "") :
    wellFormedUnit (normalizeWs s) = true := by
  rw [wellFormedUnit_iff]
  rw [str_ne_empty_iff] at h
  exact ⟨h, headNotWs_stripChars _, lastNotWs_stripChars _,
    noAdjWs_stripChars (noAdjWs_collapseWs _)⟩

theorem wellFormedUnit_join {a b : String}
    (ha : wellFormedUnit a = true) (hb : wellFormedUnit b = true) :
    wellFormedUnit (a ++ " " ++ b) = true := by
  rw [wellFormedUnit_iff] at ha hb ⊢
  obtain ⟨ha1, ha2, ha3, ha4⟩ := ha
  obtain ⟨hb1, hb2, hb3, hb4⟩ := hb
  have hdata : (a ++ " " ++ b).data = a.data ++ (' ' :: b.data) := by
    simp [String.data_append]
  rw [hdata]
  refine ⟨by simp, ?_, ?_, ?_⟩
  · rw [headNotWs_append_left ha1]
    exact ha2
  · rw [lastNotWs_append_right (by simp)]
    have : (' ' :: b.data) = [' '] ++ b.data := rfl
    rw [this, lastNotWs_append_right hb1]
    exact hb3
  · refine noAdjWs_append a.data (' ' :: b.data) ha4 ?_ ?_
    · cases hbd : b.data with
      | nil => exact absurd hbd hb1
      | cons d m =>
        rw [hbd] at hb2 hb4
        simp only [headNotWs, Bool.not_eq_true'] at hb2
        simp only [noAdjWs, Bool.and_eq_true]
        exact ⟨by simp [hb2], hb4⟩
    · intro x y h1 h2
      simp only [List.head?_cons, Option.some.injEq] at h2
      subst h2
      rw [lastNotWs, h1, Bool.not_eq_true'] at ha3
      simp [ha3]

theorem pyStrip_of_wellFormed {u : String} (h : wellFormedUnit u = true) :
    pyStrip u = u := by
  rw [wellFormedUnit_iff] at h
  exact String.ext (stripChars_eq_self h.2.1 h.2.2.1)

/-! ## Helper lemmas: space joins and greedy chunking -/

theorem str_ne_empty_iff_length (s : String) : s ≠ "" ↔ s.length ≠ 0 := by
  rw [str_ne_empty_iff]
  exact (not_congr List.length_eq_zero).symm

theorem joinSpace_append_singleton :
    ∀ (g : List String) (s : String),
      joinSpace (g ++ [s]) = if g = [] then s else joinSpace g ++ " " ++ s
  | [], s => rfl
  | [x], s => by simp [joinSpace]
  | x :: y :: rest, s => by
    have ih := joinSpace_append_singleton (y :: rest) s
    rw [if_neg (by simp)] at ih
    rw [if_neg (by simp)]
    have h1 : (x :: y :: rest) ++ [s] = x :: ((y :: rest) ++ [s]) := rfl
    rw [h1]
    have h2 : joinSpace (x :: ((y :: rest) ++ [s])) =
        x ++ " " ++ joinSpace ((y :: rest) ++ [s]) := rfl
    rw [h2, ih]
    have h3 : joinSpace (x :: y :: rest) = x ++ " " ++ joinSpace (y :: rest) := rfl
    rw [h3]
    simp [String.append_assoc]

theorem joinSpace_ne_empty :
    ∀ {g : List String}, (∀ x ∈ g, x ≠ "") → g ≠ [] → joinSpace g ≠ ""
  | [], _, hg => absurd rfl hg
  | [s], hne, _ => by simpa [joinSpace] using hne s (by simp)
  | s :: t :: rest, hne, _ => by
    rw [str_ne_empty_iff_length, joinSpace]
    rw [String.length_append, String.length_append]
    have h1 : (" " : String).length = 1 := rfl
    omega

theorem joinSpace_eq_empty_iff {g : List String} (hne : ∀ x ∈ g, x ≠ "") :
    joinSpace g = "" ↔ g = [] := by
  constructor
  · intro h
    by_contra hg
    exact joinSpace_ne_empty hne hg h
  · intro h
    subst h
    rfl

theorem data_append_space (a b : String) :
    (a ++ " " ++ b).data = a.data ++ (' ' :: b.data) := by
  simp [String.data_append]

theorem strip_stable_ends {x : String} (_ : x ≠ "") (hs : pyStrip x = x) :
    headNotWs x.data = true ∧ lastNotWs x.data = true := by
  have hd : stripChars x.data = x.data := congrArg String.data hs
  exact ⟨headNotWs_of_stripChars_eq hd, lastNotWs_of_stripChars_eq hd⟩

theorem joinSpace_ends :
    ∀ {g : List String}, (∀ x ∈ g, x ≠ "" ∧ pyStrip x = x) → g ≠ [] →
      headNotWs (joinSpace g).data = true ∧ lastNotWs (joinSpace g).data = true
  | [], _, hg => absurd rfl hg
  | [s], hs, _ => by
    have := hs s (by simp)
    simpa [joinSpace] using strip_stable_ends this.1 this.2
  | s :: t :: rest, hs, _ => by
    have hsme := hs s (by simp)
    have hsends := strip_stable_ends hsme.1 hsme.2
    have htail : ∀ x ∈ t :: rest, x ≠ "" ∧ pyStrip x = x := by
      intro x hx
      exact hs x (by simp [hx])
    have ihends := joinSpace_ends htail (by simp)
    have hjne : joinSpace (t :: rest) ≠ "" :=
      joinSpace_ne_empty (fun x hx => (htail x hx).1) (by simp)
    rw [joinSpace, data_append_space]
    constructor
    · rw [headNotWs_append_left ((str_ne_empty_iff s).mp hsme.1)]
      exact hsends.1
    · rw [lastNotWs_append_right (by simp)]
      have : (' ' :: (joinSpace (t :: rest)).data) = [' '] ++ (joinSpace (t :: rest)).data := rfl
      rw [this, lastNotWs_append_right ((str_ne_empty_iff _).mp hjne)]
      exact ihends.2

theorem joinSpace_strip_stable {g : List String}
    (hs : ∀ x ∈ g, x ≠ "" ∧ pyStrip x = x) (hg : g ≠ []) :
    pyStrip (joinSpace g) = joinSpace g := by
  have := joinSpace_ends hs hg
  exact String.ext (stripChars_eq_self this.1 this.2)

theorem loop_eq_greedy (t : Nat) :
    ∀ (ss group : List String), (∀ s ∈ ss, s ≠ "" ∧ pyStrip s = s) →
      (∀ s ∈ group, s ≠ "" ∧ pyStrip s = s) →
      segment_by_length_loop t ss (joinSpace group) =
        (greedySentenceGroups t ss group).map joinSpace
  | [], group, _, hg => by
    rw [segment_by_length_loop, greedySentenceGroups]
    by_cases h : group = []
    · subst h
      simp [joinSpace]
    · rw [if_pos (joinSpace_ne_empty (fun x hx => (hg x hx).1) h), if_pos h]
      simp [joinSpace_strip_stable hg h]
  | s :: rest, group, hss, hg => by
    have hsme := hss s (by simp)
    have hrest : ∀ x ∈ rest, x ≠ "" ∧ pyStrip x = x := by
      intro x hx
      exact hss x (by simp [hx])
    rw [segment_by_length_loop, greedySentenceGroups]
    by_cases h : group = []
    · subst h
      have hj : joinSpace ([] : List String) = "" := rfl
      rw [hj]
      rw [if_neg (by simp)]
      rw [if_neg (by simp)]
      rw [if_neg (by simp)]
      have ih := loop_eq_greedy t rest [s] hrest (by simpa using hsme)
      simpa [joinSpace] using ih
    · have hjne : joinSpace group ≠ "" := joinSpace_ne_empty (fun x hx => (hg x hx).1) h
      by_cases hlen : (joinSpace group).length + s.length > t
      · rw [if_pos ⟨hlen, hjne⟩, if_pos ⟨hlen, h⟩]
        rw [joinSpace_strip_stable hg h]
        have ih := loop_eq_greedy t rest [s] hrest (by simpa using hsme)
        rw [List.map_cons]
        rw [show joinSpace [s] = s from rfl] at ih
        rw [ih]
      · rw [if_neg (show ¬((joinSpace group).length + s.length > t ∧ joinSpace group ≠ "") from
          fun hcontra => hlen hcontra.1)]
        rw [if_pos hjne]
        rw [if_neg (show ¬((joinSpace group).length + s.length > t ∧ group ≠ []) from
          fun hcontra => hlen hcontra.1)]
        have hext : ∀ x ∈ group ++ [s], x ≠ "" ∧ pyStrip x = x := by
          intro x hx
          rcases List.mem_append.mp hx with h1 | h2
          · exact hg x h1
          · simp only [List.mem_singleton] at h2
            subst h2
            exact hsme
        have ih := loop_eq_greedy t rest (group ++ [s]) hrest hext
        rw [joinSpace_append_singleton, if_neg h] at ih
        exact ih

theorem greedy_flatten (t : Nat) :
    ∀ (ss group : List String),
      (greedySentenceGroups t ss group).flatten = group ++ ss
  | [], group => by
    by_cases h : group = [] <;> simp [greedySentenceGroups, h]
  | s :: rest, group => by
    rw [greedySentenceGroups]
    by_cases hcond : ((joinSpace group).length + s.length > t ∧ group ≠ [])
    · rw [if_pos hcond]
      rw [List.flatten_cons, greedy_flatten t rest [s]]
      simp
    · rw [if_neg hcond]
      rw [greedy_flatten t rest (group ++ [s])]
      simp

theorem greedy_groups_ne_nil (t : Nat) :
    ∀ (ss group : List String), ∀ g ∈ greedySentenceGroups t ss group, g ≠ []
  | [], group => by
    by_cases h : group = [] <;> simp [greedySentenceGroups, h]
  | s :: rest, group => by
    rw [greedySentenceGroups]
    by_cases hcond : ((joinSpace group).length + s.length > t ∧ group ≠ [])
    · rw [if_pos hcond]
      intro g hgmem
      rcases List.mem_cons.mp hgmem with rfl | hmem
      · exact hcond.2
      · exact greedy_groups_ne_nil t rest [s] g hmem
    · rw [if_neg hcond]
      intro g hgmem
      exact greedy_groups_ne_nil t rest (group ++ [s]) g hgmem

theorem greedy_groups_bound (t : Nat) :
    ∀ (ssAll ss group : List String), (∀ x ∈ ss, x ∈ ssAll) →
      (group = [] ∨ (∃ s ∈ ssAll, group = [s]) ∨ (joinSpace group).length ≤ t + 1) →
      ∀ g ∈ greedySentenceGroups t ss group,
        (∃ s ∈ ssAll, g = [s]) ∨ (joinSpace g).length ≤ t + 1
  | ssAll, [], group, _, hinv => by
    rw [greedySentenceGroups]
    by_cases h : group = []
    · rw [if_neg (by simp [h])]
      intro g hg
      simp at hg
    · rw [if_pos h]
      intro g hg
      simp only [List.mem_singleton] at hg
      subst hg
      rcases hinv with h1 | h2 | h3
      · exact absurd h1 h
      · exact Or.inl h2
      · exact Or.inr h3
  | ssAll, s :: rest, group, hsub, hinv => by
    have hs : s ∈ ssAll := hsub s (by simp)
    have hrest : ∀ x ∈ rest, x ∈ ssAll := fun x hx => hsub x (by simp [hx])
    rw [greedySentenceGroups]
    by_cases hcond : ((joinSpace group).length + s.length > t ∧ group ≠ [])
    · rw [if_pos hcond]
      intro g hgmem
      rcases List.mem_cons.mp hgmem with rfl | hmem
      · rcases hinv with h1 | h2 | h3
        · exact absurd h1 hcond.2
        · exact Or.inl h2
        · exact Or.inr h3
      · exact greedy_groups_bound t ssAll rest [s]
          hrest (Or.inr (Or.inl ⟨s, hs, rfl⟩)) g hmem
    · rw [if_neg hcond]
      intro g hgmem
      refine greedy_groups_bound t ssAll rest (group ++ [s]) hrest ?_ g hgmem
      by_cases h : group = []
      · subst h
        exact Or.inr (Or.inl ⟨s, hs, by simp⟩)
      · have hlen : ¬((joinSpace group).length + s.length > t) := by
          intro hcontra
          exact hcond ⟨hcontra, h⟩
        refine Or.inr (Or.inr ?_)
        rw [joinSpace_append_singleton, if_neg h]
        rw [String.length_append, String.length_append]
        have h1 : (" " : String).length = 1 := rfl
        omega

theorem loop_chunks_stripped (t : Nat) :
    ∀ (ss : List String) (cur : String), ∀ c ∈ segment_by_length_loop t ss cur,
      pyStrip c = c
  | [], cur => by
    rw [segment_by_length_loop]
    by_cases h : cur = ""
    · rw [if_neg (by simp [h])]
      intro c hc
      simp at hc
    · rw [if_pos h]
      intro c hc
      simp only [List.mem_singleton] at hc
      subst hc
      exact pyStrip_idem cur
  | s :: rest, cur => by
    rw [segment_by_length_loop]
    by_cases hcond : (cur.length + s.length > t ∧ cur ≠ "")
    · rw [if_pos hcond]
      intro c hc
      rcases List.mem_cons.mp hc with rfl | hmem
      · exact pyStrip_idem cur
      · exact loop_chunks_stripped t rest s c hmem
    · rw [if_neg hcond]
      intro c hc
      exact loop_chunks_stripped t rest _ c hc

/-! ## Helper lemmas: paragraph cleaning and sentence cleaning -/

theorem wellFormedUnit_normalize_of_ge {para : String} {n : Nat}
    (hn : n ≠ 0) (h : ¬(normalizeWs para).length < n) :
    wellFormedUnit (normalizeWs para) = true := by
  refine wellFormedUnit_normalizeWs ?_
  rw [str_ne_empty_iff_length]
  omega

theorem paraLoop_wellFormed (m : Nat) :
    ∀ (paras cleaned : List String) (buffer : String),
      (∀ u ∈ cleaned, wellFormedUnit u = true) →
      (buffer = "" ∨ wellFormedUnit buffer = true) →
      ∀ u ∈ paraLoop m paras cleaned buffer, wellFormedUnit u = true
  | [], cleaned, buffer, hc, hb => by
    rw [paraLoop]
    by_cases h : buffer = ""
    · rw [if_neg (by simp [h])]
      exact hc
    · rw [if_pos h]
      intro u hu
      rcases List.mem_append.mp hu with h1 | h2
      · exact hc u h1
      · simp only [List.mem_singleton] at h2
        subst h2
        rcases hb with hb0 | hwf
        · exact absurd hb0 h
        · exact hwf
  | para :: rest, cleaned, buffer, hc, hb => by
    rw [paraLoop]
    by_cases h1 : (normalizeWs para).length < 10
    · rw [if_pos h1]
      exact paraLoop_wellFormed m rest cleaned buffer hc hb
    · rw [if_neg h1]
      have hwfp : wellFormedUnit (normalizeWs para) = true :=
        wellFormedUnit_normalize_of_ge (by omega) h1
      by_cases h2 : ((normalizeWs para).length < m ∧ buffer ≠ "")
      · rw [if_pos h2]
        refine paraLoop_wellFormed m rest cleaned (buffer ++ " " ++ normalizeWs para) hc ?_
        refine Or.inr (wellFormedUnit_join ?_ hwfp)
        rcases hb with hb0 | hwf
        · exact absurd hb0 h2.2
        · exact hwf
      · rw [if_neg h2]
        by_cases h3 : (normalizeWs para).length < m
        · rw [if_pos h3]
          exact paraLoop_wellFormed m rest cleaned (normalizeWs para) hc (Or.inr hwfp)
        · rw [if_neg h3]
          by_cases h4 : buffer ≠ ""
          · rw [if_pos h4]
            refine paraLoop_wellFormed m rest (cleaned ++ [buffer, normalizeWs para]) "" ?_ (Or.inl rfl)
            intro u hu
            rcases List.mem_append.mp hu with hu1 | hu2
            · exact hc u hu1
            · rcases List.mem_cons.mp hu2 with rfl | hu2
              · rcases hb with hb0 | hwf
                · exact absurd hb0 h4
                · exact hwf
              · simp only [List.mem_singleton] at hu2
                subst hu2
                exact hwfp
          · rw [if_neg h4]
            refine paraLoop_wellFormed m rest (cleaned ++ [normalizeWs para]) "" ?_ (Or.inl rfl)
            intro u hu
            rcases List.mem_append.mp hu with hu1 | hu2
            · exact hc u hu1
            · simp only [List.mem_singleton] at hu2
              subst hu2
              exact hwfp

theorem clean_sentences_eq :
    ∀ ss : List String,
      clean_sentences ss = (ss.map normalizeWs).filter (fun s => 10 < s.length)
  | [] => rfl
  | sent :: rest => by
    rw [clean_sentences]
    simp only [List.map_cons, List.filter_cons]
    by_cases h : 10 < (normalizeWs sent).length
    · rw [if_pos (show (normalizeWs sent).length > 10 from h)]
      rw [clean_sentences_eq rest]
      simp [h]
    · rw [if_neg (show ¬((normalizeWs sent).length > 10) from h)]
      rw [clean_sentences_eq rest]
      simp [h]

/-! ## Helper lemmas: locator -/

theorem map_paras_eq (b0 : Block) (bs : List Block) :
    ∀ units : List String,
      map_paragraphs_to_blocks units (b0 :: bs) =
        units.map (fun u =>
          match (b0 :: bs).find? (paraBlockMatch u) with
          | some b => ⟨u, b.page, b.bbox⟩
          | none => ⟨u, b0.page, b0.bbox⟩)
  | [] => rfl
  | u :: rest => by
    rw [map_paragraphs_to_blocks, List.map_cons, map_paras_eq b0 bs rest]
    cases h : (b0 :: bs).find? (paraBlockMatch u) <;> simp [h]

theorem map_sents_eq (b0 : Block) (bs : List Block) :
    ∀ units : List String,
      map_sentences_to_blocks units (b0 :: bs) =
        units.map (fun u =>
          match (b0 :: bs).find? (sentBlockMatch u) with
          | some b => ⟨u, b.page, b.bbox⟩
          | none => ⟨u, b0.page, b0.bbox⟩)
  | [] => rfl
  | u :: rest => by
    rw [map_sentences_to_blocks, List.map_cons, map_sents_eq b0 bs rest]
    cases h : (b0 :: bs).find? (sentBlockMatch u) <;> simp [h]

theorem map_paras_texts (b0 : Block) (bs : List Block) :
    ∀ units : List String,
      (map_paragraphs_to_blocks units (b0 :: bs)).map (fun r => r.text) = units
  | [] => rfl
  | u :: rest => by
    rw [map_paragraphs_to_blocks]
    cases h : (b0 :: bs).find? (paraBlockMatch u) <;>
      simp [map_paras_texts b0 bs rest]

theorem map_sents_texts (b0 : Block) (bs : List Block) :
    ∀ units : List String,
      (map_sentences_to_blocks units (b0 :: bs)).map (fun r => r.text) = units
  | [] => rfl
  | u :: rest => by
    rw [map_sentences_to_blocks]
    cases h : (b0 :: bs).find? (sentBlockMatch u) <;>
      simp [map_sents_texts b0 bs rest]

/-! ## Claims -/

/-- Claim C1, counterexample: on the given three-candidate text with the
default minimum length 50, `segment_paragraphs` does NOT return the two
units claimed (the merged `short1 short2` followed by the long candidate).
The tokenizer argument is irrelevant on this input and instantiated
concretely. -/
theorem C1_counterexample :
    segment_paragraphs (fun t => [t])
      "short1\n\nshort2\n\nThis is long enough text exceeding fifty characters total here"
      50 ≠
    ["short1 short2",
     "This is long enough text exceeding fifty characters total here"] := by
  decide

/-- Claim C1 (amended): the two short candidates (length 6) fall below the
minimum-10 noise filter and are discarded before the merge buffer ever sees
them, so the result has exactly one unit, the long candidate alone — for
every tokenizer, since the fallback is not triggered. -/
theorem C1_paragraph_merge (tok : String → List String) :
    segment_paragraphs tok
      "short1\n\nshort2\n\nThis is long enough text exceeding fifty characters total here"
      50 =
    ["This is long enough text exceeding fifty characters total here"] := by
  rfl

/-- Claim C2, counterexample: a text with no blank line and below the
minimum length triggers the chunking fallback, whose chunks keep internal
whitespace runs; the returned unit `a  b` holds a run of two spaces, so it
is not whitespace-normalized.  The tokenizer returns the whole text as one
sentence, which is what the punkt tokenizer does on punctuation-free
input. -/
theorem C2_counterexample :
    segment_paragraphs (fun t => [t]) "a  b" 50 = ["a  b"] ∧
      wellFormedUnit "a  b" = false := by
  decide

/-- Claim C2 (amended): sentence-mode units and paragraph-mode candidate
units are non-empty, trimmed and internally normalized; every unit returned
by `segment_paragraphs` (fallback chunks included) is trimmed at both ends,
and — provided the tokenizer sentences are non-empty and strip-stable, as
punkt output is — also non-empty; but fallback chunks are not internally
normalized. -/
theorem C2_unit_invariants (tok : String → List String) (text : String)
    (min_length : Nat) :
    (∀ u ∈ segment_sentences tok text, wellFormedUnit u = true) ∧
    (∀ u ∈ paragraph_candidates text min_length, wellFormedUnit u = true) ∧
    (∀ u ∈ segment_paragraphs tok text min_length, pyStrip u = u) ∧
    ((∀ s ∈ tok text, s ≠ "" ∧ pyStrip s = s) →
      ∀ u ∈ segment_paragraphs tok text min_length, u ≠ "") := by
  have hcand : ∀ u ∈ paragraph_candidates text min_length, wellFormedUnit u = true :=
    paraLoop_wellFormed min_length (splitParas text) [] "" (by simp) (Or.inl rfl)
  refine ⟨?_, hcand, ?_, ?_⟩
  · intro u hu
    rw [segment_sentences, clean_sentences_eq] at hu
    obtain ⟨hu1, hu2⟩ := List.mem_filter.mp hu
    have hlen : 10 < u.length := of_decide_eq_true hu2
    obtain ⟨s, _, rfl⟩ := List.mem_map.mp hu1
    refine wellFormedUnit_normalizeWs ?_
    rw [str_ne_empty_iff_length]
    omega
  · intro u hu
    rw [segment_paragraphs] at hu
    split at hu
    · exact loop_chunks_stripped 500 (tok text) "" u hu
    · exact pyStrip_of_wellFormed (hcand u hu)
  · intro htok u hu
    rw [segment_paragraphs] at hu
    split at hu
    · rw [segment_by_length] at hu
      have heq := loop_eq_greedy 500 (tok text) [] htok (by simp)
      rw [show joinSpace [] = "" from rfl] at heq
      rw [heq] at hu
      obtain ⟨g, hg, rfl⟩ := List.mem_map.mp hu
      have hgne : g ≠ [] := greedy_groups_ne_nil 500 (tok text) [] g hg
      have hels : ∀ x ∈ g, x ≠ "" := by
        intro x hx
        have hflat : x ∈ (greedySentenceGroups 500 (tok text) []).flatten :=
          List.mem_flatten.mpr ⟨g, hg, hx⟩
        rw [greedy_flatten, List.nil_append] at hflat
        exact (htok x hflat).1
      exact joinSpace_ne_empty hels hgne
    · have hwf := hcand u hu
      rw [wellFormedUnit_iff] at hwf
      exact (str_ne_empty_iff u).mpr hwf.1

/-- Witness for the amended claim C2 at concrete inputs, exercising the
sentence invariant, the trim invariant, and the non-emptiness of a
fallback chunk. -/
theorem C2_witness :
    wellFormedUnit "Alpha beta gamma delta." = true ∧
      pyStrip "First block of text here." = "First block of text here." ∧
      ("a  b" : String) ≠ "" :=
  ⟨(C2_unit_invariants (fun t => [t]) "Alpha beta gamma delta." 50).1
      "Alpha beta gamma delta." (by decide),
   (C2_unit_invariants (fun t => [t]) "First block of text here." 50).2.2.1
      "First block of text here." (by decide),
   (C2_unit_invariants (fun t => [t]) "a  b" 50).2.2.2 (by decide)
      "a  b" (by decide)⟩

/-- Claim C3: when the tokenizer sentences are non-empty and strip-stable,
the fallback chunks are exactly the space-joins of the greedy grouping of
the tokenizer output on the original text: each chunk is a join of one or
more complete consecutive sentences (never a truncation), the groups
partition the sentence list in order, and a group is closed exactly when
the length check of the loop fires. -/
theorem C3_chunk_sentence_boundaries (tok : String → List String) (text : String)
    (target_length : Nat)
    (h : ∀ s ∈ tok text, s ≠ "" ∧ pyStrip s = s) :
    segment_by_length tok text target_length =
      (greedySentenceGroups target_length (tok text) []).map joinSpace ∧
    (greedySentenceGroups target_length (tok text) []).flatten = tok text ∧
    (∀ g ∈ greedySentenceGroups target_length (tok text) [], g ≠ []) := by
  refine ⟨?_, ?_, ?_⟩
  · have := loop_eq_greedy target_length (tok text) [] h (by simp)
    simpa [segment_by_length, joinSpace] using this
  · simpa using greedy_flatten target_length (tok text) []
  · exact greedy_groups_ne_nil target_length (tok text) []

/-- Witness for claim C3 at a concrete tokenizer output. -/
theorem C3_witness :
    segment_by_length (fun _ => ["One two.", "Three four."]) "x" 500 =
      (greedySentenceGroups 500 ["One two.", "Three four."] []).map joinSpace :=
  (C3_chunk_sentence_boundaries (fun _ => ["One two.", "Three four."]) "x" 500
    (by decide)).1

/-- Claim C4: with a non-empty block list, the locators return one record
per unit, in order, each carrying the text of its unit — nothing dropped,
nothing duplicated. -/
theorem C4_locator_completeness (units : List String) (blocks : List Block)
    (h : blocks ≠ []) :
    (map_paragraphs_to_blocks units blocks).map (fun r => r.text) = units ∧
    (map_sentences_to_blocks units blocks).map (fun r => r.text) = units := by
  obtain ⟨b0, bs, rfl⟩ := List.exists_cons_of_ne_nil h
  exact ⟨map_paras_texts b0 bs units, map_sents_texts b0 bs units⟩

/-- Witness for claim C4 at a concrete unit and block list. -/
theorem C4_witness :
    (map_paragraphs_to_blocks ["hello there friend"]
        [{ text := "block holding hello there friend", page := 1,
           bbox := (0, 0, 0, 0) }]).map (fun r => r.text) =
      ["hello there friend"] :=
  (C4_locator_completeness ["hello there friend"]
      [{ text := "block holding hello there friend", page := 1,
         bbox := (0, 0, 0, 0) }] (by decide)).1

/-- Claim C5: each unit is assigned the page and bbox of the first matching
block in the given order — paragraph mode matches when the first 50
characters of the unit occur in the block text or the block text occurs in
the unit, sentence mode when the whole unit occurs in the block text — and
a unit with no matching block receives exactly the page and bbox of the
first block. -/
theorem C5_locator_first_match (units : List String) (b0 : Block) (bs : List Block) :
    (map_paragraphs_to_blocks units (b0 :: bs) =
      units.map (fun u =>
        match (b0 :: bs).find? (paraBlockMatch u) with
        | some b => ⟨u, b.page, b.bbox⟩
        | none => ⟨u, b0.page, b0.bbox⟩)) ∧
    (map_sentences_to_blocks units (b0 :: bs) =
      units.map (fun u =>
        match (b0 :: bs).find? (sentBlockMatch u) with
        | some b => ⟨u, b.page, b.bbox⟩
        | none => ⟨u, b0.page, b0.bbox⟩)) ∧
    (∀ u, (∀ b ∈ b0 :: bs, paraBlockMatch u b = false) →
      map_paragraphs_to_blocks [u] (b0 :: bs) = [⟨u, b0.page, b0.bbox⟩]) ∧
    (∀ u, (∀ b ∈ b0 :: bs, sentBlockMatch u b = false) →
      map_sentences_to_blocks [u] (b0 :: bs) = [⟨u, b0.page, b0.bbox⟩]) := by
  refine ⟨map_paras_eq b0 bs units, map_sents_eq b0 bs units, ?_, ?_⟩
  · intro u hu
    have hnone : (b0 :: bs).find? (paraBlockMatch u) = none :=
      List.find?_eq_none.mpr (fun b hb => by simp [hu b hb])
    rw [map_paragraphs_to_blocks, hnone]
    rfl
  · intro u hu
    have hnone : (b0 :: bs).find? (sentBlockMatch u) = none :=
      List.find?_eq_none.mpr (fun b hb => by simp [hu b hb])
    rw [map_sentences_to_blocks, hnone]
    rfl

/-- Witness for claim C5: a unit matching no block falls back to the first
block. -/
theorem C5_witness :
    map_paragraphs_to_blocks ["zzz not present anywhere"]
        [{ text := "totally different block text", page := 3,
           bbox := (1, 2, 3, 4) }] =
      [⟨"zzz not present anywhere", 3, (1, 2, 3, 4)⟩] :=
  (C5_locator_first_match ["unused"]
      { text := "totally different block text", page := 3, bbox := (1, 2, 3, 4) }
      []).2.2.1 "zzz not present anywhere" (by decide)

/-- Claim C6, counterexample: a NON-EMPTY but invalid credential does not
stop the run.  With a gateway that rejects the key on every call, the run
completes and every unit receives a fallback result — contradicting the
claim that an invalid credential halts the run before any per-unit result
is produced. -/
theorem C6_counterexample :
    main_run "INVALID_KEY" (fun _ => Except.error "no json")
      (fun _ _ => GenResponse.err "API key not valid") true ["Alpha beta"] =
    Except.ok [{ is_vague := false,
                 reason := "Error analyzing paragraph: API key not valid",
                 suggestion := "Alpha beta" }] := by
  rfl

/-- Claim C6 (amended): only a MISSING (empty) credential is a precondition
failure that stops the run before any unit is processed; with any non-empty
credential the run proceeds and produces one result per unit, so a
non-empty invalid credential surfaces per unit as fallback results instead
of stopping the run. -/
theorem C6_credential_gate (parseJson : String → Except String ParsedAnalysis)
    (gateway : String → String → GenResponse) (use_paragraphs : Bool)
    (units : List String) :
    main_run "" parseJson gateway use_paragraphs units =
      Except.error "Please enter your Google Gemini API key in the sidebar first!" ∧
    (∀ api_key, api_key ≠ "" →
      main_run api_key parseJson gateway use_paragraphs units =
        Except.ok (units.map (fun u =>
          if use_paragraphs then analyze_paragraph parseJson (gateway api_key) u
          else analyze_sentence parseJson (gateway api_key) u))) := by
  constructor
  · rfl
  · intro k hk
    rw [main_run, if_neg hk]

/-- Witness for the amended claim C6 at a concrete non-empty key. -/
theorem C6_witness :
    main_run "k" (fun _ => Except.error "e")
      (fun _ _ => GenResponse.err "boom") true ["u1"] =
    Except.ok [{ is_vague := false, reason := "Error analyzing paragraph: boom",
                 suggestion := "u1" }] :=
  (C6_credential_gate (fun _ => Except.error "e")
    (fun _ _ => GenResponse.err "boom") true ["u1"]).2 "k" (by decide)

/-- Claim C7: a raised transport error or an unparseable response is
absorbed locally into a well-formed fallback result with `is_vague` false,
a diagnostic reason and the original unit as the suggestion; and the batch
analyzer maps each item independently to its own result, so one item
failing cannot affect the results of the others and the output has one
result per input item. -/
theorem C7_failure_isolation
    (parseJson : String → Except String ParsedAnalysis)
    (generate : String → GenResponse) (items : List String)
    (use_paragraphs : Bool) (p e : String) :
    (generate p = GenResponse.err e →
      analyze_paragraph parseJson generate p =
        { is_vague := false, reason := "Error analyzing paragraph: " ++ e,
          suggestion := p } ∧
      analyze_sentence parseJson generate p =
        { is_vague := false, reason := "Error analyzing sentence: " ++ e,
          suggestion := p }) ∧
    (∀ raw, generate p = GenResponse.ok raw →
      parseJson (stripCodeFence (pyStrip raw)) = Except.error e →
      analyze_paragraph parseJson generate p =
        { is_vague := false, reason := "Error parsing response: " ++ e,
          suggestion := p } ∧
      analyze_sentence parseJson generate p =
        { is_vague := false, reason := "Error parsing response: " ++ e,
          suggestion := p }) ∧
    analyze_batch parseJson generate use_paragraphs items =
      items.map (fun item =>
        if use_paragraphs then analyze_paragraph parseJson generate item
        else analyze_sentence parseJson generate item) := by
  refine ⟨?_, ?_, ?_⟩
  · intro h
    constructor
    · simp [analyze_paragraph, h]
    · simp [analyze_sentence, h]
  · intro raw h1 h2
    constructor
    · simp [analyze_paragraph, h1, h2]
    · simp [analyze_sentence, h1, h2]
  · induction items with
    | nil => rfl
    | cons i rest ih => rw [analyze_batch, ih, List.map_cons]

/-- Witness for claim C7 at a concrete failing gateway. -/
theorem C7_witness :
    analyze_paragraph (fun _ => Except.error "bad json")
      (fun u => if u = "B" then GenResponse.err "down" else GenResponse.ok "raw") "B" =
    { is_vague := false, reason := "Error analyzing paragraph: down",
      suggestion := "B" } :=
  ((C7_failure_isolation (fun _ => Except.error "bad json")
      (fun u => if u = "B" then GenResponse.err "down" else GenResponse.ok "raw")
      ["A", "B"] true "B" "down").1 (by decide)).1

/-- Claim C8: `segment_sentences` is exactly the normalize-then-filter of
the tokenizer output — original order, no deduplication — and every emitted
unit has normalized length strictly greater than 10. -/
theorem C8_sentence_length_floor (tok : String → List String) (text : String) :
    segment_sentences tok text =
      ((tok text).map normalizeWs).filter (fun s => 10 < s.length) ∧
    ∀ u ∈ segment_sentences tok text, 10 < u.length := by
  constructor
  · exact clean_sentences_eq (tok text)
  · intro u hu
    rw [segment_sentences, clean_sentences_eq] at hu
    exact of_decide_eq_true (List.mem_filter.mp hu).2

/-- Witness for claim C8 at a concrete tokenizer output. -/
theorem C8_witness : 10 < ("This is a sentence." : String).length :=
  (C8_sentence_length_floor (fun _ => ["This is a sentence.", "shorty"])
    "irrelevant").2 "This is a sentence." (by decide)

/-- Claim C9: with an empty block list both locators return the empty list,
producing no record for any unit, raising no error and inventing no
location. -/
theorem C9_empty_blocks (paragraphs sentences : List String) :
    map_paragraphs_to_blocks paragraphs [] = [] ∧
    map_sentences_to_blocks sentences [] = [] := by
  constructor
  · induction paragraphs with
    | nil => rfl
    | cons u rest ih =>
      rw [map_paragraphs_to_blocks]
      simp only [List.find?_nil]
      exact ih
  · induction sentences with
    | nil => rfl
    | cons u rest ih =>
      rw [map_sentences_to_blocks]
      simp only [List.find?_nil]
      exact ih

/-- Claim C10: when the tokenizer sentences are non-empty and strip-stable,
every chunk of `segment_by_length` is either literally one of the tokenizer
sentences (an over-long sentence kept whole) or has length at most
`target_length + 1` — multi-sentence chunks can exceed the target only by
the one joining space added after the length check. -/
theorem C10_chunk_size_bound (tok : String → List String) (text : String)
    (target_length : Nat)
    (h : ∀ s ∈ tok text, s ≠ "" ∧ pyStrip s = s) :
    ∀ c ∈ segment_by_length tok text target_length,
      c ∈ tok text ∨ c.length ≤ target_length + 1 := by
  intro c hc
  rw [segment_by_length] at hc
  have heq := loop_eq_greedy target_length (tok text) [] h (by simp)
  rw [show joinSpace [] = "" from rfl] at heq
  rw [heq] at hc
  obtain ⟨g, hg, rfl⟩ := List.mem_map.mp hc
  have hbound := greedy_groups_bound target_length (tok text) (tok text) []
    (fun x hx => hx) (Or.inl rfl) g hg
  rcases hbound with ⟨s, hs, rfl⟩ | hlen
  · exact Or.inl (by simpa [joinSpace] using hs)
  · exact Or.inr hlen

/-- Witness for claim C10 at a concrete tokenizer output and target. -/
theorem C10_witness :
    "First bit." ∈ ["First bit.", "Second bit."] ∨
      ("First bit." : String).length ≤ 13 :=
  C10_chunk_size_bound (fun _ => ["First bit.", "Second bit."]) "y" 12
    (by decide) "First bit." (by decide)

end VagueDetect

